import Mathlib

/-!
Shallow embedding of the cpark RDD library core (headers under src/include)
and proofs of the specified properties of its transformations and actions.

Partitions (called splits in the source) are embedded as Lean lists of their
elements; each lazy C++ iterator is embedded as the function from its inputs
to the element sequence it yields, written as a state machine mirroring the
source's iterator members where the iterator has internal state.
-/

set_option autoImplicit false

namespace Cpark

universe u v w

variable {α : Type u} {β : Type v}

/-! ### FilterView (filter_rdd.h)

FilterView::Iterator holds the current position and advances with
std::ranges::find_if to the next element satisfying the predicate, both at
construction (begin) and after each increment.  On a list, find_if from the
current position is dropWhile of the negated predicate; the iterator equals
the end sentinel exactly when the remaining suffix is empty. -/

/-- Element sequence produced by iterating a FilterView over `xs` with
predicate `p`: repeatedly find_if the next satisfying element, yield it,
advance past it. -/
def filterCollect (p : α → Bool) (xs : List α) : List α :=
  match h : xs.dropWhile (fun x => !p x) with
  | [] => []
  | x :: t => x :: filterCollect p t
termination_by xs.length
decreasing_by
  have hle := (List.dropWhile_sublist (l := xs) (fun x => !p x)).length_le
  rw [h] at hle
  simp at hle
  omega

theorem filter_dropWhile_not (p : α → Bool) :
    ∀ xs : List α, (xs.dropWhile (fun x => !p x)).filter p = xs.filter p := by
  intro xs
  induction xs with
  | nil => rfl
  | cons x t ih =>
    by_cases hx : p x
    · simp [List.dropWhile, hx]
    · simp only [List.dropWhile, List.filter, hx]
      simpa [hx] using ih

/-- The FilterView iterator yields exactly the filtered sequence. -/
theorem filterCollect_eq_filter (p : α → Bool) (xs : List α) :
    filterCollect p xs = xs.filter p := by
  refine filterCollect.induct p (fun ys => filterCollect p ys = ys.filter p) ?_ ?_ xs
  · intro xs heq
    rw [filterCollect]
    rw [heq]
    have hfil := filter_dropWhile_not p xs
    rw [heq] at hfil
    simpa using hfil.symm
  · intro xs x t heq ih
    rw [filterCollect]
    rw [heq]
    have hne : xs.dropWhile (fun y => !p y) ≠ [] := by rw [heq]; simp
    have hhead : (xs.dropWhile (fun y => !p y)).head hne = x := by
      revert hne
      rw [heq]
      intro hne
      rfl
    have hx0 := List.head_dropWhile_not (fun y => !p y) xs hne
    rw [hhead] at hx0
    replace hx0 : p x = true := by simpa using hx0
    have hfil := filter_dropWhile_not p xs
    rw [heq] at hfil
    change x :: filterCollect p t = List.filter p xs
    rw [ih, ← hfil]
    simp [List.filter, hx0]

/-! ### MergedSameView (merged_view.h)

MergedSameView::Iterator holds (inner_iterator, index_of_view).  Both the
constructor (hence begin) and operator++ run a loop that, while the inner
iterator sits at the end of the current view and views remain, moves to the
begin of the next view.  The end sentinel has index_of_view = number of views.
The state is embedded as the list of not-yet-consumed views, the current
view's unconsumed suffix at its head; the end state is the empty list. -/

/-- Element sequence produced by iterating a MergedSameView whose remaining
views (current suffix first) are `views`. -/
def msCollect : List (List α) → List α
  | [] => []
  | [] :: rest => msCollect rest
  | (x :: t) :: rest => x :: msCollect (t :: rest)
termination_by views => views.foldr (fun l n => l.length + 1 + n) 0

/-- The MergedSameView iterator yields the concatenation of the views. -/
theorem msCollect_eq_flatten (views : List (List α)) : msCollect views = views.flatten := by
  induction views using msCollect.induct with
  | case1 => simp [msCollect]
  | case2 rest ih => rw [msCollect]; simpa using ih
  | case3 x t rest ih => rw [msCollect]; simp at ih ⊢; simp [ih]

/-! ### TransformedRdd (transformed_rdd.h)

The constructor creates, for each split of the parent, one child split whose
view is `prev_split | std::views::transform(func)`. -/

/-- Splits of `TransformedRdd(prev, f)`: one split per parent split, each the
elementwise image of its parent split. -/
def transformedRddSplits (f : α → β) (parts : List (List α)) : List (List β) :=
  parts.map (fun s => s.map f)

/-- C2: concatenating the element sequences of the partitions of
`source | map(f)` in partition index order equals `map(f, source_elements)`:
the same elements in the same order, with no omission and no duplication. -/
theorem transformed_join_eq_map (f : α → β) (parts : List (List α)) :
    (transformedRddSplits f parts).flatten = (parts.flatten).map f := by
  induction parts with
  | nil => rfl
  | cons p ps ih => simp only [transformedRddSplits, List.map_cons, List.flatten_cons,
      List.map_append] at ih ⊢; rw [ih]

/-! ### MergeRdd (merge_rdd.h)

MergeRdd::Iterator holds (begins_, ends_, current_, row_).  The begin
iterator starts with row_ = 0 and current_ = begins_[0] without any
skipping; operator++ increments current_ and then, while current_ sits at
ends_[row_] and rows remain, moves to begins_ of the next row; iterators
compare equal exactly when their current_ iterators are equal, and the end
iterator's current_ is ends_ of the last row.  The state is embedded as the
pair (unconsumed suffix of the current row, remaining rows); the end state
is ([], []).  Dereferencing an iterator whose current_ sits at the end of a
row is undefined behaviour in the source and is embedded as `none`. -/

/-- Element sequence read by the MergeRdd iterator from a state reached
after at least one increment (or an end state). -/
def mergeCont : List α → List (List α) → Option (List α)
  | [], [] => some []
  | [], r :: rs => mergeCont r rs
  | x :: t, rest => (mergeCont t rest).map (fun l => x :: l)
termination_by cur rest => cur.length + rest.length + (rest.map List.length).sum

/-- Element sequence of the single split of `MergeRdd(prev)`, starting from
the begin iterator, which does not skip an empty first row. -/
def mergeRddSeq (parts : List (List α)) : Option (List α) :=
  match parts with
  | [] => some []
  | [] :: [] => some []
  | [] :: _ :: _ => none
  | (x :: t) :: ps => (mergeCont t ps).map (fun l => x :: l)

theorem mergeCont_eq_flatten (cur : List α) (rest : List (List α)) :
    mergeCont cur rest = some (cur ++ rest.flatten) := by
  induction cur, rest using mergeCont.induct with
  | case1 => simp [mergeCont]
  | case2 r rs ih => rw [mergeCont]; simpa using ih
  | case3 x t rest ih => rw [mergeCont]; rw [ih]; simp

/-- C9 counterexample: when the first parent partition is empty and another
partition follows, the begin iterator of the merged split dereferences the
first partition's end iterator instead of stepping to the next partition, so
the merged sequence is not the concatenation `[5]`. -/
theorem merge_first_empty_partition_fails :
    mergeRddSeq ([[], [5]] : List (List Nat)) ≠ some [5] := by
  simp [mergeRddSeq]

/-- C9 (amended): `Merge(A)` produces one child partition whose element
sequence is the concatenation of the element sequences of all of A's
partitions in their declared order, with empty partitions skipped on
advance, provided A's first partition is non-empty or A has no further
partitions; when A has at least two partitions and the first is empty, the
begin iterator dereferences the first partition's end (undefined behaviour)
because the skip to the next non-empty parent happens only on advance. -/
theorem merge_concat_of_first_nonempty (p : List α) (ps : List (List α))
    (h : p ≠ [] ∨ ps = []) :
    mergeRddSeq (p :: ps) = some ((p :: ps).flatten) := by
  match p, ps with
  | [], [] => simp [mergeRddSeq]
  | [], q :: qs => cases h with
    | inl hl => exact absurd rfl hl
    | inr hr => exact absurd hr (by simp)
  | x :: t, ps =>
    rw [mergeRddSeq]
    rw [mergeCont_eq_flatten]
    simp

/-- C9 witness: the amended theorem applied to partitions `[[1],[],[2]]`. -/
theorem merge_concat_of_first_nonempty_witness :
    ([1] ≠ ([] : List Nat) ∨ ([[], [2]] : List (List Nat)) = []) ∧
      mergeRddSeq ([[1], [], [2]] : List (List Nat)) = some [1, 2] :=
  ⟨Or.inl (by simp), merge_concat_of_first_nonempty [1] [[], [2]] (Or.inl (by simp))⟩

/-! ### ZippedRdd (zipped_rdd.h) and ZipView (zip_rdd.h)

ZippedRdd builds child split `i` as parent 1's split `i` transformed by a
stateful lambda that pairs each element `x` with `*(targeted_split++)`,
where targeted_split starts at the begin of parent 2's split `i`: the child
sequence has one element per element of A's split, and dereferencing
targeted_split past the end of B's split is undefined behaviour (embedded
as `none`).

ZipView::Iterator advances both inner iterators together and compares equal
to the end iterator only when both inner iterators are at their ends, so
iteration past the shorter range dereferences its end (embedded as
`none`). -/

/-- Element sequence of a ZippedRdd child split built from parent splits
`as` and `bs`. -/
def zippedRddSeq : List α → List β → Option (List (α × β))
  | [], _ => some []
  | _ :: _, [] => none
  | a :: t, b :: u => (zippedRddSeq t u).map (fun l => (a, b) :: l)

/-- Element sequence of a ZipView over ranges `as` and `bs`. -/
def zipViewSeq : List α → List β → Option (List (α × β))
  | [], [] => some []
  | [], _ :: _ => none
  | _ :: _, [] => none
  | a :: t, b :: u => (zipViewSeq t u).map (fun l => (a, b) :: l)

/-- Splits of `ZippedRdd(prev1, prev2)`: child split `i` pairs parent 1's
split `i` with parent 2's split `i`. -/
def zippedRddSplits (As : List (List α)) (Bs : List (List β)) :
    List (Option (List (α × β))) :=
  List.zipWith zippedRddSeq As Bs

/-- C8 counterexample: on partitions `[1,2]` and `[5]` neither zip
implementation halts after the shorter stream and yields `[(1,5)]` of
length `min 2 1 = 1`; both read past the end of the shorter range. -/
theorem zip_not_truncated_counterexample :
    zippedRddSeq [1, 2] ([5] : List Nat) ≠ some [(1, 5)] ∧
      zipViewSeq [1, 2] ([5] : List Nat) ≠ some [(1, 5)] := by
  constructor <;> simp [zippedRddSeq, zipViewSeq]

theorem zipViewSeq_eq_zip (as : List α) (bs : List β)
    (h : as.length = bs.length) : zipViewSeq as bs = some (as.zip bs) := by
  induction as generalizing bs with
  | nil =>
    match bs with
    | [] => simp [zipViewSeq]
    | b :: u => simp at h
  | cons a t ih =>
    match bs with
    | [] => simp at h
    | b :: u =>
      rw [zipViewSeq]
      rw [ih u (by simpa using h)]
      simp

theorem zippedRddSeq_eq_zip (as : List α) (bs : List β)
    (h : as.length ≤ bs.length) : zippedRddSeq as bs = some (as.zip bs) := by
  induction as generalizing bs with
  | nil => simp [zippedRddSeq]
  | cons a t ih =>
    match bs with
    | [] => simp at h
    | b :: u =>
      rw [zippedRddSeq]
      rw [ih u (by simpa using h)]
      simp

/-- C8 (amended): for `Zip(A, B)` with equal partition counts, the `i`-th
child partition pairs A's partition `i` with B's partition `i` elementwise;
its length equals `|A[i]|` (not `min`): when `|A[i]| ≤ |B[i]|` the sequence
is the elementwise zip of length `|A[i]|`, and when `|A[i]| > |B[i]|` the
iterator reads past the end of B's partition (undefined behaviour) instead
of truncating; ZipView likewise halts only when both streams end together,
so it yields the elementwise zip exactly when the lengths are equal. -/
theorem zip_pairs_elementwise (As : List (List α)) (Bs : List (List β)) (i : Nat)
    (hA : i < As.length) (hB : i < Bs.length)
    (h : (As.get ⟨i, hA⟩).length ≤ (Bs.get ⟨i, hB⟩).length) :
    (zippedRddSplits As Bs).get? i
        = some (zippedRddSeq (As.get ⟨i, hA⟩) (Bs.get ⟨i, hB⟩)) ∧
      zippedRddSeq (As.get ⟨i, hA⟩) (Bs.get ⟨i, hB⟩)
        = some ((As.get ⟨i, hA⟩).zip (Bs.get ⟨i, hB⟩)) ∧
      ((As.get ⟨i, hA⟩).zip (Bs.get ⟨i, hB⟩)).length = (As.get ⟨i, hA⟩).length ∧
      ((As.get ⟨i, hA⟩).length = (Bs.get ⟨i, hB⟩).length →
        zipViewSeq (As.get ⟨i, hA⟩) (Bs.get ⟨i, hB⟩)
          = some ((As.get ⟨i, hA⟩).zip (Bs.get ⟨i, hB⟩))) := by
  refine ⟨?_, zippedRddSeq_eq_zip _ _ h, ?_, ?_⟩
  · rw [zippedRddSplits]
    rw [List.get?_eq_getElem?]
    rw [List.getElem?_zipWith]
    rw [List.getElem?_eq_getElem hA, List.getElem?_eq_getElem hB]
    simp
  · simpa [List.length_zip] using h
  · intro hlen
    exact zipViewSeq_eq_zip _ _ hlen

/-- C8 witness: the amended theorem applied to one-partition datasets
`[[1]]` and `[[7]]` at partition index 0. -/
theorem zip_pairs_elementwise_witness :
    (0 < 1) ∧
      (zippedRddSplits [[1]] ([[7]] : List (List Nat))).get? 0
          = some (zippedRddSeq [1] [7]) ∧
        zippedRddSeq [1] ([7] : List Nat) = some [(1, 7)] := by
  have h := zip_pairs_elementwise [[1]] ([[7]] : List (List Nat)) 0
    (by decide) (by decide) (by decide)
  exact ⟨by decide, h.1, h.2.1⟩

/-! ### GroupByKeyRdd (group_by_key_rdd.h)

GroupByKeyRdd::Iterator::evaluate materializes an unordered_map by looping
over the parent partition's (key, value) pairs and appending each value to
the bucket of its key; iteration then yields the buckets in unspecified
order.  The map built by the loop is embedded as the function from a key to
its bucket. -/

variable {K : Type u} {V : Type v}

/-- One step of GroupByKeyRdd::Iterator::evaluate: append `kv`'s value to
the bucket of `kv`'s key. -/
def gbkInsert [DecidableEq K] (m : K → List V) (kv : K × V) : K → List V :=
  fun k => if k = kv.1 then m k ++ [kv.2] else m k

/-- The grouping map built by GroupByKeyRdd::Iterator::evaluate from the
parent partition `xs`. -/
def gbkBuild [DecidableEq K] (xs : List (K × V)) : K → List V :=
  xs.foldl gbkInsert (fun _ => [])

/-- All values the GroupByKeyRdd yields for key `k`, over all its child
partitions in partition order (each child partition groups one parent
partition). -/
def groupByKeyValues [DecidableEq K] (partss : List (List (K × V))) (k : K) : List V :=
  (partss.map (fun xs => gbkBuild xs k)).flatten

theorem gbkBuild_from [DecidableEq K] (xs : List (K × V)) (m : K → List V) (k : K) :
    xs.foldl gbkInsert m k = m k ++ (xs.filter (fun kv => decide (kv.1 = k))).map Prod.snd := by
  induction xs generalizing m with
  | nil => simp
  | cons kv t ih =>
    rw [List.foldl_cons, ih]
    by_cases hk : kv.1 = k
    · simp [gbkInsert, List.filter, hk]
    · simp [gbkInsert, List.filter, hk, Ne.symm hk]

theorem gbkBuild_eq_filter_map [DecidableEq K] (xs : List (K × V)) (k : K) :
    gbkBuild xs k = (xs.filter (fun kv => decide (kv.1 = k))).map Prod.snd := by
  rw [gbkBuild, gbkBuild_from]
  simp

theorem filter_flatten_eq (q : α → Bool) (L : List (List α)) :
    (L.flatten).filter q = (L.map (fun l => l.filter q)).flatten := by
  induction L with
  | nil => rfl
  | cons l ls ih => simp [List.filter_append, ih]

/-- C7: for every key `k`, the value list that GroupByKey yields for `k` is
a permutation of the multiset of all values `v` such that `(k, v)` occurs
in the input (here it is in fact exactly those values in input order, with
the input partitions taken in order); iterator order over keys is
unspecified and not constrained here. -/
theorem group_by_key_values_perm [DecidableEq K] (partss : List (List (K × V))) (k : K) :
    List.Perm (groupByKeyValues partss k)
      (((partss.flatten).filter (fun kv => decide (kv.1 = k))).map Prod.snd) := by
  have hval : groupByKeyValues partss k
      = ((partss.flatten).filter (fun kv => decide (kv.1 = k))).map Prod.snd := by
    rw [groupByKeyValues, filter_flatten_eq]
    rw [List.map_flatten]
    congr 1
    rw [List.map_map]
    exact List.map_congr_left (fun xs _ => gbkBuild_eq_filter_map xs k)
  rw [hval]

/-! ### PartitionByRdd (partition_by_rdd.h)

The constructor builds, for each output index `i` in `[0, splits_num)`, one
child split viewing `FilterView(MergedSameView(prev), PartitionerHelper{i,
splits_num, partitioner})`; PartitionerHelper::operator() accepts an element
`x` iff `partitioner(x.first) % splits_num == i`. -/

/-- Splits of `PartitionByRdd(prev, partitioner)` with `N` output splits:
output split `i` filters the concatenation of all parent splits by the
PartitionerHelper predicate for index `i`. -/
def partitionByRddSplits (N : Nat) (h : K → Nat) (parts : List (List (K × V))) :
    List (List (K × V)) :=
  (List.range N).map (fun i => filterCollect (fun kv => decide (h kv.1 % N = i)) (msCollect parts))

/-- C6: for a key-value dataset re-partitioned by PartitionByKey with hash
`h` into `N` output partitions, output partition `i` is the filter of the
concatenation of all parent partitions by the predicate `h(k) mod N = i`,
and hence every pair `(k, v)` in output partition `i` satisfies
`h(k) mod N = i`. -/
theorem partition_by_key_filter_concat (N : Nat) (h : K → Nat)
    (parts : List (List (K × V))) (i : Nat) (hi : i < N) :
    (partitionByRddSplits N h parts).get? i
        = some ((parts.flatten).filter (fun kv => decide (h kv.1 % N = i))) ∧
      ∀ kv ∈ (parts.flatten).filter (fun kv => decide (h kv.1 % N = i)),
        h kv.1 % N = i := by
  constructor
  · rw [partitionByRddSplits]
    rw [List.get?_eq_getElem?]
    rw [List.getElem?_map]
    rw [List.getElem?_range hi]
    rw [Option.map]
    rw [filterCollect_eq_filter, msCollect_eq_flatten]
  · intro kv hkv
    rw [List.mem_filter] at hkv
    simpa using hkv.2

/-- C6 witness: the theorem applied to `N = 2`, the identity hash, two
one-element parent partitions, and output index 1. -/
theorem partition_by_key_filter_concat_witness :
    (1 < 2) ∧
      ((partitionByRddSplits 2 (fun
        k => k) [[(3, 10)], [(4, 20)]]).get? 1
          = some ((([[(3, 10)], [(4, 20)]] : List (List (Nat × Nat))).flatten).filter
              (fun kv => decide (kv.1 % 2 = 1))) ∧
        ∀ kv ∈ ((([[(3, 10)], [(4, 20)]] : List (List (Nat × Nat))).flatten).filter
            (fun kv => decide (kv.1 % 2 = 1))), kv.1 % 2 = 1) :=
  ⟨by decide, partition_by_key_filter_concat 2 (fun k => k) [[(3, 10)], [(4, 20)]] 1 (by decide)⟩

/-! ### Reduce (reduce.h)

Reduce::operator() submits one task per split computing
`std::reduce(begin(split), end(split), T{}, func)` and then folds the task
results, in split order, with `std::reduce(begin(results), end(results),
T{}, func)`.  Both reductions are embedded as the sequential left fold,
which is the behaviour of std::reduce without an execution policy on a
forward range; `T{}`, the value-initialized init, is the parameter `e`. -/

/-- Per-split task of `Reduce(op)`: fold the split's elements from the
value-initialized init `e`. -/
def reduceTask (op : α → α → α) (e : α) (s : List α) : α := s.foldl op e

/-- Result of the `Reduce(op)` action on the splits `parts`: fold the
per-split partial results in split order, again from `e`. -/
def reduceAction (op : α → α → α) (e : α) (parts : List (List α)) : α :=
  (parts.map (reduceTask op e)).foldl op e

theorem foldl_shift (op : α → α → α) (e : α)
    (hassoc : ∀ a b c, op (op a b) c = op a (op b c))
    (hl : ∀ a, op e a = a) (hr : ∀ a, op a e = a) :
    ∀ (s : List α) (a : α), s.foldl op a = op a (s.foldl op e) := by
  intro s
  induction s with
  | nil => intro a; simpa using (hr a).symm
  | cons x t ih =>
    intro a
    rw [List.foldl_cons, List.foldl_cons, ih (op a x), ih (op e x), hl, ← hassoc]

/-- C3: for an associative operation `op` whose identity is the
value-initialized init `e`, the Reduce action returns the sequential fold
of `op` over the dataset's elements; each per-partition task returns the
fold of its partition from `e`, so an empty partition contributes `e`, and
the driver folds the partial results in partition index order. -/
theorem reduce_eq_sequential_fold (op : α → α → α) (e : α) (parts : List (List α))
    (hassoc : ∀ a b c, op (op a b) c = op a (op b c))
    (hl : ∀ a, op e a = a) (hr : ∀ a, op a e = a) :
    reduceAction op e parts = (parts.flatten).foldl op e ∧ reduceTask op e [] = e := by
  refine ⟨?_, rfl⟩
  induction parts with
  | nil => rfl
  | cons p ps ih =>
    rw [reduceAction, List.map_cons, List.foldl_cons]
    rw [foldl_shift op e hassoc hl hr (ps.map (reduceTask op e)) (op e (reduceTask op e p))]
    rw [List.flatten_cons, List.foldl_append]
    rw [foldl_shift op e hassoc hl hr ps.flatten (p.foldl op e)]
    rw [hl]
    rw [show (ps.map (reduceTask op e)).foldl op e = reduceAction op e ps from rfl, ih]
    rfl

/-- C3 witness: the theorem applied to addition on naturals with identity 0
and the partitions `[[1,2],[],[3]]`. -/
theorem reduce_eq_sequential_fold_witness :
    reduceAction Nat.add 0 [[1, 2], [], [3]] = ([[1, 2], [], [3]].flatten).foldl Nat.add 0 :=
  (reduce_eq_sequential_fold Nat.add 0 [[1, 2], [], [3]]
    (fun a b c => Nat.add_assoc a b c) (fun a => Nat.zero_add a)
    (fun a => Nat.add_zero a)).1

/-! ### Count (count.h)

Count::operator() submits one task per split computing
`static_cast<unsigned long long>(split.size())` and accumulates the task
results with `std::accumulate(results.begin(), results.end(), 0)`: the
accumulator's type is `int`, the type of the literal `0`.

`split.size()` comes from view_interface and computes `end() - begin()`
through CachedSplit::Iterator::operator-(const Iterator&): with the cache
branch never taken (the dependency reverse-index is never populated, see
the ExecutionContext section), it subtracts the two original iterators when
`requires { a - b }` holds for the split's original iterator type and
otherwise throws std::runtime_error("Not Implemented").  `hasDiff` records
whether that requires-clause holds (true e.g. for PlainRdd splits over a
random-access view, false e.g. for GeneratorRdd or FilterRdd splits); a
throw is embedded as `none`. -/

/-- A split as seen by the Count action: its elements together with whether
its original iterator type supports iterator difference. -/
structure CSplit (α : Type u) where
  elems : List α
  hasDiff : Bool

/-- Result of one Count task: `static_cast<unsigned long long>(split.size())`,
or `none` for the runtime_error throw when the iterator difference is not
available. -/
def splitSizeULL (s : CSplit α) : Option Nat :=
  if s.hasDiff then some (s.elems.length % 2 ^ 64) else none

/-- Joining all Count task futures in order; any task's exception is
rethrown by future::get. -/
def collectSizes : List (CSplit α) → Option (List Nat)
  | [] => some []
  | s :: t =>
    match splitSizeULL s, collectSizes t with
    | some n, some ns => some (n :: ns)
    | _, _ => none

/-- C++ conversion of an `int` value to `unsigned long long` (modular). -/
def ullOfInt (n : Int) : Nat := (n % ((2 : Int) ^ 64)).toNat

/-- C++20 conversion of an `unsigned long long` value to `int` (modular,
two's complement). -/
def int32OfNat (n : Nat) : Int :=
  if n % 2 ^ 32 < 2 ^ 31 then ((n % 2 ^ 32 : Nat) : Int)
  else ((n % 2 ^ 32 : Nat) : Int) - 2 ^ 32

/-- One std::accumulate step `acc = acc + *it` with `acc : int` and
`*it : unsigned long long`: `acc` converts to unsigned long long, the sum
wraps mod `2^64`, and the result converts back to `int`. -/
def accAdd (acc : Int) (sz : Nat) : Int :=
  int32OfNat ((ullOfInt acc + sz) % 2 ^ 64)

/-- Result of the Count action: accumulate the task results from the `int`
literal 0 and convert the final `int` back to the unsigned long long return
type. -/
def countAction (parts : List (CSplit α)) : Option Nat :=
  (collectSizes parts).map (fun sizes => ullOfInt (sizes.foldl accAdd 0))

/-- C4 counterexample: on a dataset with one two-element partition whose
iterator does not support difference (e.g. a Range source: GeneratorRdd's
Iterator defines no subtraction), `split.size()` throws "Not Implemented"
instead of iterating to count, so Count does not return 2. -/
theorem count_throws_on_unsized_split :
    ¬ countAction [CSplit.mk ([10, 20] : List Nat) false] = some 2 := by
  decide

theorem accAdd_nat (a sz : Nat) (h : a + sz < 2 ^ 31) :
    accAdd (a : Int) sz = ((a + sz : Nat) : Int) := by
  have h64 : (2 : Nat) ^ 31 < 2 ^ 64 := by norm_num
  have ha : ullOfInt (a : Int) = a := by
    rw [ullOfInt]
    rw [Int.emod_eq_of_lt (by positivity) (by exact_mod_cast by omega)]
    simp
  rw [accAdd, ha, Nat.mod_eq_of_lt (by omega), int32OfNat]
  have h32 : (a + sz) % 2 ^ 32 = a + sz := Nat.mod_eq_of_lt (by norm_num at h ⊢; omega)
  rw [if_pos (by rw [h32]; omega)]
  rw [h32]

theorem foldl_accAdd (sizes : List Nat) :
    ∀ a : Nat, a + sizes.sum < 2 ^ 31 →
      sizes.foldl accAdd (a : Int) = ((a + sizes.sum : Nat) : Int) := by
  induction sizes with
  | nil => intro a h; simp
  | cons n ns ih =>
    intro a h
    rw [List.sum_cons] at h
    rw [List.foldl_cons, accAdd_nat a n (by omega)]
    rw [ih (a + n) (by omega)]
    rw [List.sum_cons]
    congr 1
    omega

theorem collectSizes_eq (parts : List (CSplit α))
    (hd : ∀ s ∈ parts, s.hasDiff = true)
    (hb : ∀ s ∈ parts, s.elems.length < 2 ^ 64) :
    collectSizes parts = some (parts.map (fun s => s.elems.length)) := by
  induction parts with
  | nil => rfl
  | cons s t ih =>
    rw [collectSizes]
    rw [splitSizeULL, if_pos (hd s (by simp))]
    rw [Nat.mod_eq_of_lt (hb s (by simp))]
    rw [ih (fun x hx => hd x (by simp [hx])) (fun x hx => hb x (by simp [hx]))]
    simp

/-- C4 (amended): the Count action returns the total number of elements of
the dataset (the sum of the lengths of its partitions) whenever every
partition's iterator supports iterator difference (so that `size()` is
computable) and the total is below `2^31` (the accumulator is a signed
32-bit `int` seeded with the literal 0); each per-partition task always
calls the partition's `size()` and there is no fallback that iterates the
partition, so `size()` throws when iterator difference is unavailable. -/
theorem count_eq_total_length_on_sized_splits (parts : List (CSplit α))
    (hd : ∀ s ∈ parts, s.hasDiff = true)
    (hs : (parts.map (fun s => s.elems.length)).sum < 2 ^ 31) :
    countAction parts = some ((parts.map (fun s => s.elems.length)).sum) := by
  have hb : ∀ s ∈ parts, s.elems.length < 2 ^ 64 := by
    intro s hsin
    have hmem : s.elems.length ∈ parts.map (fun s => s.elems.length) :=
      List.mem_map_of_mem _ hsin
    have hle : s.elems.length ≤ (parts.map (fun s => s.elems.length)).sum :=
      List.single_le_sum (fun x _ => Nat.zero_le x) _ hmem
    have : (2 : Nat) ^ 31 < 2 ^ 64 := by norm_num
    omega
  rw [countAction, collectSizes_eq parts hd hb]
  rw [Option.map]
  have h0 := foldl_accAdd (parts.map (fun s => s.elems.length)) 0 (by simpa using hs)
  simp only [Nat.zero_add] at h0
  rw [show ((0 : Nat) : Int) = (0 : Int) from rfl] at h0
  rw [h0, ullOfInt]
  have hlt : (((parts.map (fun s => s.elems.length)).sum : Nat) : Int) < (2 : Int) ^ 64 := by
    have h2 : (2 : Nat) ^ 31 < 2 ^ 64 := by norm_num
    have h3 : (parts.map (fun s => s.elems.length)).sum < 2 ^ 64 := by omega
    exact_mod_cast h3
  rw [Int.emod_eq_of_lt (by positivity) hlt]
  rw [Int.toNat_natCast]

/-- C4 witness: the amended theorem applied to two sized partitions with
three elements in total. -/
theorem count_eq_total_length_on_sized_splits_witness :
    countAction [CSplit.mk ([5, 6] : List Nat) true, CSplit.mk [7] true] = some 3 :=
  count_eq_total_length_on_sized_splits
    [CSplit.mk ([5, 6] : List Nat) true, CSplit.mk [7] true]
    (by decide) (by norm_num)

/-! ### ExecutionContext dependency reverse-index and cache decision (cpark.h)

ExecutionContext keeps `dependent_by_`, a map from a split id to the set of
split ids depending on it; markDependency(from, to) inserts `from` into
`dependent_by_[to]`, and splitShouldCache(id) holds iff `dependent_by_`
contains `id` with at least 2 entries.  BaseSplit::addDependency however
only appends to the split's own `dependencies_` vector and never calls
markDependency; no caller of markDependency exists anywhere in the source,
so the reverse-index stays empty.  The map is embedded as a function from a
split id to its entry list (with insertion deduplicated, as for an
unordered_set), absent ids mapping to the empty list. -/

/-- Identifier of a split within an execution context. -/
abbrev SplitId := Nat

/-- The execution-context state relevant to split ids and caching: the
next_split_id_ counter and the dependent_by_ reverse-index. -/
structure DepState where
  nextSplitId : Nat
  dependentBy : SplitId → List SplitId

/-- A freshly constructed ExecutionContext: counter 0, empty reverse-index. -/
def initialDepState : DepState := ⟨0, fun _ => []⟩

/-- ExecutionContext::markDependency(from, to): inserts `from` into the
unordered_set dependent_by_[to]. -/
def markDependency (st : DepState) (fromId toId : SplitId) : DepState :=
  { st with
    dependentBy := fun k =>
      if k = toId then
        if fromId ∈ st.dependentBy toId then st.dependentBy toId
        else fromId :: st.dependentBy toId
      else st.dependentBy k }

/-- ExecutionContext::splitShouldCache(id): dependent_by_ contains `id` and
the entry's size is at least 2. -/
def splitShouldCache (st : DepState) (id : SplitId) : Bool :=
  !(st.dependentBy id).isEmpty && decide (2 ≤ (st.dependentBy id).length)

/-- The identity- and dependency-related fields of a BaseSplit: its split
id and its local dependencies_ vector. -/
structure SplitRec where
  splitId : SplitId
  deps : List SplitId

/-- BaseSplit::BaseSplit(context): a split with a fresh id from
getAndIncSplitId (a u32 counter) and no dependencies yet. -/
def newSplit (st : DepState) : SplitRec × DepState :=
  (⟨st.nextSplitId, []⟩, { st with nextSplitId := (st.nextSplitId + 1) % 2 ^ 32 })

/-- BaseSplit::addDependency(split_id): appends to the split's local
dependencies_ vector; the context's dependent_by_ reverse-index is not
touched (markDependency has no callers in the source). -/
def addDependency (s : SplitRec) (st : DepState) (parentId : SplitId) :
    SplitRec × DepState :=
  ({ s with deps := s.deps ++ [parentId] }, st)

/-- Construction of a child split depending on the split `parentId`, as
performed by the transformation constructors (e.g. TransformedRdd's
`splits_.emplace_back(...); splits_.back().addDependency(prev_split)`):
create the split with a fresh id, then addDependency of the parent. -/
def constructChildSplit (st : DepState) (parentId : SplitId) :
    SplitRec × DepState :=
  addDependency (newSplit st).1 (newSplit st).2 parentId

/-- C1: after constructing two child partitions that each depend on the
partition `p` (id 0 here), splitShouldCache(p) is still false, because
addDependency never registers the parent in the context's dependency
reverse-index — markDependency is never called; had the two dependencies
been marked through markDependency, splitShouldCache(p) would be true, as
the second conjunct shows. -/
theorem splitShouldCache_false_after_two_children :
    splitShouldCache
        (constructChildSplit
          (constructChildSplit (newSplit initialDepState).2
            (newSplit initialDepState).1.splitId).2
          (newSplit initialDepState).1.splitId).2
        (newSplit initialDepState).1.splitId = false ∧
      splitShouldCache
        (markDependency (markDependency initialDepState 1 0) 2 0) 0 = true := by
  constructor
  · decide
  · decide

/-! ### Rdd identities (base_rdd.h, cpark.h)

ExecutionContext::getAndIncRddId post-increments the atomic u32 counter
next_rdd_id_.  `BaseRdd(context)` and `BaseRdd(prev, copy_id=false)` assign
a fresh rdd id this way (TransformedRdd, FilterRdd, FlatMapRdd, MergeRdd,
ZippedRdd, UnionRdd all pass `copy_id = false`), while the copy constructor
`BaseRdd(prev)` copies prev's rdd id — and PartitionByRdd and GroupByKeyRdd
invoke exactly that constructor through `Base{prev}`. -/

/-- The rdd-id allocation state of an execution context: the next_rdd_id_
counter (a u32, stored modulo `2^32`). -/
structure IdState where
  nextRddId : Nat

/-- ExecutionContext::getAndIncRddId: returns the counter and increments it
with u32 wrap-around. -/
def getAndIncRddId (c : IdState) : Nat × IdState :=
  (c.nextRddId, ⟨(c.nextRddId + 1) % 2 ^ 32⟩)

/-- Rdd id assigned to a TransformedRdd (through `Base{prev, false}`): a
fresh id from the counter. -/
def transformedRddId (c : IdState) : Nat × IdState := getAndIncRddId c

/-- Rdd id assigned to a PartitionByRdd (through `Base{prev}`, the copy
constructor): the parent's rdd id, with no counter increment. -/
def partitionByRddId (c : IdState) (parentId : Nat) : Nat × IdState := (parentId, c)

/-- Rdd id assigned to a GroupByKeyRdd (through `Base{prev}`, the copy
constructor): the parent's rdd id, with no counter increment. -/
def groupByKeyRddId (c : IdState) (parentId : Nat) : Nat × IdState := (parentId, c)

/-- The ids handed out by `n` successive getAndIncRddId calls. -/
def allocIds : Nat → IdState → List Nat
  | 0, _ => []
  | n + 1, c => (getAndIncRddId c).1 :: allocIds n (getAndIncRddId c).2

/-- C10 counterexample: in a fresh execution context, a source dataset gets
rdd id 0 and a GroupByKeyRdd derived from it copies that id instead of
receiving a fresh one, so the derived dataset's id is not distinct from its
parent's. -/
theorem group_by_key_copies_parent_rdd_id :
    (groupByKeyRddId (getAndIncRddId ⟨0⟩).2 (getAndIncRddId ⟨0⟩).1).1
      = (getAndIncRddId ⟨0⟩).1 := by
  decide

/-- The split ids handed out by `n` successive split constructions: every
split constructor in the source reaches `BaseSplit(context)` or a
`BaseSplit(other, copy_id = false, ...)` copy, both of which draw a fresh
split id from getAndIncSplitId (embedded by `newSplit`). -/
def allocSplitIds : Nat → DepState → List SplitId
  | 0, _ => []
  | n + 1, st => (newSplit st).1.splitId :: allocSplitIds n (newSplit st).2

theorem allocSplitIds_eq_range' (n : Nat) :
    ∀ st : DepState, st.nextSplitId + n ≤ 2 ^ 32 →
      allocSplitIds n st = List.range' st.nextSplitId n := by
  induction n with
  | zero => intro st _; rfl
  | succ m ih =>
    intro st h
    rw [allocSplitIds]
    cases m with
    | zero => simp [allocSplitIds, List.range', newSplit]
    | succ l =>
      have hmod : (st.nextSplitId + 1) % 2 ^ 32 = st.nextSplitId + 1 :=
        Nat.mod_eq_of_lt (by omega)
      have hih := ih (newSplit st).2 (by simp only [newSplit, hmod]; omega)
      simp only [newSplit] at hih ⊢
      rw [hih]
      simp only [hmod]
      simp [List.range']

theorem allocIds_eq_range' (n : Nat) :
    ∀ c : IdState, c.nextRddId + n ≤ 2 ^ 32 →
      allocIds n c = List.range' c.nextRddId n := by
  induction n with
  | zero => intro c _; rfl
  | succ m ih =>
    intro c h
    rw [allocIds]
    cases m with
    | zero => simp [allocIds, List.range', getAndIncRddId]
    | succ l =>
      have hmod : (c.nextRddId + 1) % 2 ^ 32 = c.nextRddId + 1 :=
        Nat.mod_eq_of_lt (by omega)
      have hih := ih ⟨(c.nextRddId + 1) % 2 ^ 32⟩ (by simp only [hmod]; omega)
      simp only [getAndIncRddId] at hih ⊢
      rw [hih]
      simp only [hmod]
      simp [List.range']

/-- C10 (amended): a dataset derived by map is assigned a fresh dataset id
(the context's counter value, hence distinct from any previously allocated
id such as its parent's as long as the 32-bit counter has not wrapped);
datasets derived by PartitionByKey or GroupByKey instead copy their
parent's dataset id; and within one execution context allocating
`K ≤ 2^32` dataset ids from a fresh context yields `K` distinct ids, and
likewise constructing `K ≤ 2^32` partitions yields `K` distinct partition
ids, since every split construction draws a fresh split id. -/
theorem rdd_ids_amended (k : Nat) (hk : k ≤ 2 ^ 32) (c : IdState) (p : Nat)
    (hp : p < c.nextRddId) :
    (allocIds k ⟨0⟩).Nodup ∧ (allocSplitIds k initialDepState).Nodup ∧
      (partitionByRddId c p).1 = p ∧
      (groupByKeyRddId c p).1 = p ∧ (transformedRddId c).1 ≠ p := by
  refine ⟨?_, ?_, rfl, rfl, ?_⟩
  · rw [allocIds_eq_range' k ⟨0⟩ (by simpa using hk)]
    exact List.nodup_range' _ _
  · rw [allocSplitIds_eq_range' k initialDepState (by simpa [initialDepState] using hk)]
    exact List.nodup_range' _ _
  · rw [transformedRddId, getAndIncRddId]
    omega

/-- C10 witness: the amended theorem for three allocations and a context
whose counter has passed the parent's id 1. -/
theorem rdd_ids_amended_witness :
    (3 ≤ 2 ^ 32) ∧ (1 < 2) ∧
      ((allocIds 3 ⟨0⟩).Nodup ∧ (allocSplitIds 3 initialDepState).Nodup ∧
        (partitionByRddId ⟨2⟩ 1).1 = 1 ∧
        (groupByKeyRddId ⟨2⟩ 1).1 = 1 ∧ (transformedRddId ⟨2⟩).1 ≠ 1) :=
  ⟨by norm_num, by decide, rdd_ids_amended 3 (by norm_num) ⟨2⟩ 1 (by decide)⟩

/-! ### GeneratorRdd (generator_rdd.h) and PlainRdd (plain_rdd.h)

Both constructors loop `i` over `[0, splits_num)` with
`total_size = end - begin` (resp. the view's size) and
`split_size = (total_size + splits_num - 1) / splits_num`, and build split
`i` between offsets `min(total_size, i * split_size)` and
`min(total_size, (i+1) * split_size)`: GeneratorRdd from two of its
function-applying iterators at those index offsets, PlainRdd as the
subrange between two copies of the view's begin advanced by those offsets.
The arithmetic type Num of GeneratorRdd is embedded as Nat (the embedding
covers begin_ ≤ end_). -/

/-- Split `i` of `GeneratorRdd(begin, end, f)` with `N` splits: the images
under `f` of the index range between the two iterator offsets. -/
def generatorSplit (b e : Nat) (f : Nat → α) (N i : Nat) : List α :=
  (List.range'
      (b + min (e - b) (i * ((e - b + N - 1) / N)))
      (min (e - b) ((i + 1) * ((e - b + N - 1) / N))
        - min (e - b) (i * ((e - b + N - 1) / N)))).map f

/-- Splits of `GeneratorRdd(begin, end, f)` with `N` splits. -/
def generatorRddSplits (b e : Nat) (f : Nat → α) (N : Nat) : List (List α) :=
  (List.range N).map (fun i => generatorSplit b e f N i)

/-- Split `i` of `PlainRdd(view)` with `N` splits: the subrange of the view
between the two advanced copies of its begin iterator. -/
def plainRddSplit (xs : List α) (N i : Nat) : List α :=
  (xs.drop (min xs.length (i * ((xs.length + N - 1) / N)))).take
    (min xs.length ((i + 1) * ((xs.length + N - 1) / N))
      - min xs.length (i * ((xs.length + N - 1) / N)))

/-- Splits of `PlainRdd(view)` with `N` splits. -/
def plainRddSplits (xs : List α) (N : Nat) : List (List α) :=
  (List.range N).map (fun i => plainRddSplit xs N i)

/-- Modelled from the spec: partition `i` of `Range(begin, end, f)` by the
floor formula of section 4.3, covering indices
`[begin + i*S/N, begin + (i+1)*S/N)` with `S = end - begin`. -/
def specRangeSplit (b e N i : Nat) (f : Nat → α) : List α :=
  (List.range' (b + i * (e - b) / N) ((i + 1) * (e - b) / N - i * (e - b) / N)).map f

/-- C5 counterexample: for `Range(0, 10, id)` over 4 partitions, the code's
ceil-chunking gives partition 1 the indices `[3, 6)` = `[3,4,5]`, not the
floor formula's `[⌊10/4⌋, ⌊20/4⌋)` = `[2,3,4]`. -/
theorem generator_split_ne_floor_formula :
    generatorSplit 0 10 (fun n => n) 4 1 ≠ specRangeSplit 0 10 4 1 (fun n => n) := by
  decide

theorem range'_drop (m : Nat) :
    ∀ (s n : Nat), (List.range' s n).drop m = List.range' (s + m) (n - m) := by
  induction m with
  | zero => intro s n; simp
  | succ l ih =>
    intro s n
    cases n with
    | zero => simp [List.range']
    | succ k =>
      rw [List.range']
      rw [List.drop_succ_cons, ih (s + 1) k]
      congr 1 <;> omega

theorem range'_take (n : Nat) :
    ∀ (s m : Nat), (List.range' s n).take m = List.range' s (min m n) := by
  induction n with
  | zero => intro s m; simp [List.range']
  | succ k ih =>
    intro s m
    cases m with
    | zero => simp [List.range']
    | succ l =>
      rw [List.range']
      rw [List.take_succ_cons, ih (s + 1) l]
      rw [show min (l + 1) (k + 1) = min l k + 1 from by omega]
      rw [List.range']

/-- Consecutive ceil-chunks of a list, as produced by the construction
loops: chunk `i` is `take c` of `drop (i*c)`. -/
def chunks (c : Nat) : Nat → List α → List (List α)
  | 0, _ => []
  | n + 1, xs => xs.take c :: chunks c n (xs.drop c)

theorem chunks_flatten (c : Nat) :
    ∀ (n : Nat) (xs : List α), xs.length ≤ n * c → (chunks c n xs).flatten = xs := by
  intro n
  induction n with
  | zero => intro xs h; simp at h; simp [chunks, h]
  | succ m ih =>
    intro xs h
    rw [chunks, List.flatten_cons]
    rw [ih (xs.drop c) (by simp [Nat.succ_mul] at h ⊢; omega)]
    exact List.take_append_drop c xs

theorem seg_take_drop (xs : List α) (c i : Nat) :
    (xs.drop (min xs.length (i * c))).take
        (min xs.length ((i + 1) * c) - min xs.length (i * c))
      = (xs.drop (i * c)).take c := by
  rcases Nat.le_total xs.length (i * c) with h | h
  · rw [Nat.min_eq_left h]
    rw [List.drop_length]
    rw [List.drop_eq_nil_of_le h]
    simp
  · rw [Nat.min_eq_right h]
    rcases Nat.le_total ((i + 1) * c) xs.length with h2 | h2
    · rw [Nat.min_eq_right h2]
      congr 1
      rw [Nat.succ_mul]
      omega
    · rw [Nat.min_eq_left h2]
      have hlen : (xs.drop (i * c)).length = xs.length - i * c := List.length_drop _ _
      rw [List.take_of_length_le (by rw [hlen]), List.take_of_length_le (by rw [hlen]; rw [Nat.succ_mul] at h2; omega)]

theorem range_map_seg (c : Nat) (xs : List α) :
    ∀ (n s : Nat),
      (List.range' s n).map (fun i => (xs.drop (i * c)).take c)
        = chunks c n (xs.drop (s * c)) := by
  intro n
  induction n with
  | zero => intro s; rfl
  | succ m ih =>
    intro s
    rw [List.range']
    rw [List.map_cons, ih (s + 1)]
    rw [chunks]
    congr 1
    rw [List.drop_drop]
    congr 1
    ring_nf

theorem plainRddSplits_flatten (xs : List α) (N : Nat) (hN : 0 < N) :
    (plainRddSplits xs N).flatten = xs := by
  have hseg : ∀ i, plainRddSplit xs N i
      = (xs.drop (i * ((xs.length + N - 1) / N))).take ((xs.length + N - 1) / N) :=
    fun i => seg_take_drop xs ((xs.length + N - 1) / N) i
  rw [plainRddSplits]
  rw [List.map_congr_left (fun i _ => hseg i)]
  rw [List.range_eq_range']
  rw [range_map_seg ((xs.length + N - 1) / N) xs N 0]
  simp only [Nat.zero_mul, List.drop_zero]
  apply chunks_flatten
  have hdm := Nat.div_add_mod (xs.length + N - 1) N
  have hmlt : (xs.length + N - 1) % N < N := Nat.mod_lt _ hN
  omega

theorem generatorSplit_eq_sub_range (b e : Nat) (f : Nat → α) (N i : Nat) :
    generatorSplit b e f N i = plainRddSplit ((List.range' b (e - b)).map f) N i := by
  rw [generatorSplit, plainRddSplit]
  have hlen : ((List.range' b (e - b)).map f).length = e - b := by simp
  rw [← List.map_drop, ← List.map_take]
  rw [hlen]
  congr 1
  rw [range'_drop, range'_take]
  congr 1
  have h1 : min (e - b) (i * ((e - b + N - 1) / N)) ≤ e - b := Nat.min_le_left _ _
  have h2 : min (e - b) ((i + 1) * ((e - b + N - 1) / N)) ≤ e - b := Nat.min_le_left _ _
  have h3 : min (e - b) (i * ((e - b + N - 1) / N))
      ≤ min (e - b) ((i + 1) * ((e - b + N - 1) / N)) := by
    have : i * ((e - b + N - 1) / N) ≤ (i + 1) * ((e - b + N - 1) / N) :=
      Nat.mul_le_mul_right _ (by omega)
    omega
  omega

/-- C5 (amended): with `S = end - begin` and `c = ceil(S / N)`
(`split_size = (S + N - 1) / N` in the source), `Range(begin, end, f)` over
`N = parallel_task_num` partitions gives partition `i` exactly the values
`f(k)` for `k` in `[begin + min(S, i*c), begin + min(S, (i+1)*c))` — the
ceil-chunking boundaries, under which every partition except possibly a
truncated or empty tail has `c` elements, not the floor boundaries
`[begin + i*S/N, begin + (i+1)*S/N)` — and FromView over a sequence of size
`S` gives partition `i` the sub-range of the sequence between the same two
offsets; the partitions are `N` in number and concatenate, in index order,
to the full element sequence. -/
theorem range_partitioning_ceil (b e : Nat) (f : Nat → α) (xs : List α) (N : Nat)
    (hN : 0 < N) :
    (generatorRddSplits b e f N).length = N ∧
      (generatorRddSplits b e f N).flatten = (List.range' b (e - b)).map f ∧
      (plainRddSplits xs N).flatten = xs ∧
      ∀ i, generatorSplit b e f N i
        = plainRddSplit ((List.range' b (e - b)).map f) N i := by
  refine ⟨by simp [generatorRddSplits], ?_, plainRddSplits_flatten xs N hN,
    generatorSplit_eq_sub_range b e f N⟩
  rw [generatorRddSplits]
  rw [List.map_congr_left (fun i _ => generatorSplit_eq_sub_range b e f N i)]
  rw [show (List.range N).map (fun i => plainRddSplit ((List.range' b (e - b)).map f) N i)
      = plainRddSplits ((List.range' b (e - b)).map f) N from rfl]
  rw [plainRddSplits_flatten _ N hN]

/-- C5 witness: the amended theorem for `Range(0, 10, id)` and a
three-element view, both over 4 partitions. -/
theorem range_partitioning_ceil_witness :
    (0 < 4) ∧
      ((generatorRddSplits 0 10 (fun n => n) 4).length = 4 ∧
        (generatorRddSplits 0 10 (fun n => n) 4).flatten
          = (List.range' 0 10).map (fun n => n) ∧
        (plainRddSplits ([9, 8, 7] : List Nat) 4).flatten = [9, 8, 7] ∧
        ∀ i, generatorSplit 0 10 (fun n => n) 4 i
          = plainRddSplit ((List.range' 0 10).map (fun n => n)) 4 i) :=
  ⟨by decide, range_partitioning_ceil 0 10 (fun n => n) [9, 8, 7] 4 (by decide)⟩

end Cpark
